import Mathlib

/-!
Verification of `scripts/render-template.py`: a shallow embedding of the
template renderer (argument parsing, `@file` value resolution, literal
placeholder substitution, and the linear effect pipeline of `main`),
together with theorems settling the specification's claims about it.

Strings are modelled as `List Char`; the file system is modelled as a
total map from paths to contents; the observable I/O of `main` is
modelled as an explicit trace of effects plus an exit code.
-/

namespace RenderTemplate

/-- Python strings are modelled as lists of characters. -/
abbrev Str := List Char

/-- Embeds `str.rstrip("\n")` (line 52): removes every trailing newline
character from the end of the string. -/
def rstripNewlines (s : Str) : Str :=
  (s.reverse.dropWhile (fun c => c = '\n')).reverse

/-- Embeds value resolution (lines 51-52): if the value starts with `@`,
the remainder names a file whose contents are read and stripped of
trailing newlines; otherwise the value is used verbatim.  `fs` is the
file system, a total map from paths to contents. -/
def resolveValue (fs : Str → Str) (v : Str) : Str :=
  if v.head? = some '@' then rstripNewlines (fs (v.drop 1)) else v

/-- Embeds `str.partition(sep)` for a one-character separator (line 43):
returns the part before the first occurrence, whether the separator was
found, and the part after it. -/
def pyPartition : Str → Char → Str × Bool × Str
  | [], _ => ([], false, [])
  | c :: t, ch =>
    if c = ch then ([], true, t)
    else
      (c :: (pyPartition t ch).1, (pyPartition t ch).2.1,
        (pyPartition t ch).2.2)

/-- Embeds lines 43-49: an argument splits on its first `=` into a key
and value; `none` when there is no `=` or the key is empty. -/
def splitArg (a : Str) : Option (Str × Str) :=
  let r := pyPartition a '='
  if r.1 = [] ∨ r.2.1 = false then none else some (r.1, r.2.2)

/-- Lookup in the association-list model of the Python dict. -/
def lookupD : List (Str × Str) → Str → Option Str
  | [], _ => none
  | p :: rest, k => if p.1 = k then some p.2 else lookupD rest k

/-- Whether a key is present in the dict. -/
def hasKey (d : List (Str × Str)) (k : Str) : Bool :=
  (lookupD d k).isSome

/-- Embeds `replacements[key] = value` (line 53) with Python dict
semantics: assigning to an existing key updates it in place (keeping its
original position in iteration order); a new key is appended. -/
def dictInsert (d : List (Str × Str)) (k v : Str) : List (Str × Str) :=
  if hasKey d k then d.map (fun p => if p.1 = k then (p.1, v) else p)
  else d ++ [(k, v)]

/-- Scanner for `str.replace(p, r)` with a nonempty pattern (line 58):
walk the text left to right; while the skip counter is positive the
characters of an already-matched pattern occurrence are consumed
without output; at skip 0, a position where the pattern is a prefix
emits the replacement (never rescanned within this pass) and starts
skipping the rest of the matched occurrence, and any other position
copies one character. -/
def replaceGo (p r : Str) : Str → ℕ → Str
  | [], _ => []
  | _ :: t, Nat.succ n => replaceGo p r t n
  | c :: t, 0 =>
    if p ≠ [] ∧ p <+: (c :: t) then r ++ replaceGo p r t (p.length - 1)
    else c :: replaceGo p r t 0

/-- `str.replace(p, r)` for a nonempty pattern `p` (line 58): the
left-to-right leftmost non-overlapping scan.  For an empty pattern the
wrapper `pyReplace` applies Python's empty-pattern behaviour instead. -/
def replaceNE (p r : Str) (s : Str) : Str := replaceGo p r s 0

/-- Embeds Python `str.replace` (line 58) in full: for an empty pattern
Python inserts the replacement before every character and at the end;
for a nonempty pattern it is the left-to-right scan `replaceNE`. -/
def pyReplace (s p r : Str) : Str :=
  if p = [] then r ++ s.foldr (fun c acc => c :: (r ++ acc)) []
  else replaceNE p r s

/-- Embeds `"{{" + key + "}}"` (line 57). -/
def placeholder (k : Str) : Str :=
  '{' :: '{' :: (k ++ ['}', '}'])

/-- Embeds the substitution loop (lines 56-58): the replacement pairs are
applied one after the other, each pass over the whole current text. -/
def substitute (html : Str) (reps : List (Str × Str)) : Str :=
  reps.foldl (fun acc p => pyReplace acc (placeholder p.1) p.2) html

/-- The two validation error messages of `main`; each carries the data
interpolated into the printed text. -/
inductive Msg where
  | usage (prog : Str)
  | invalidArg (arg : Str)
deriving DecidableEq

/-- Observable effects of one invocation, in program order: a message
printed to stderr, a read of an `@`-referenced file (line 52), the read
of the input file (line 55), and the write of the output file (line 60). -/
inductive Effect where
  | errPrint (m : Msg)
  | readAux (path : Str)
  | readInput (path : Str)
  | writeFile (path : Str) (content : Str)
deriving DecidableEq

/-- Result of one invocation: the ordered effect trace and the exit code. -/
structure Outcome where
  effects : List Effect
  exitCode : Nat
deriving DecidableEq

/-- Embeds the argument loop (lines 42-53): arguments are processed in
order; the first malformed one prints an invalid-argument error and
aborts with no dict; otherwise the resolved value is stored, reading
`@`-files as encountered. -/
def processArgs (fs : Str → Str) :
    List Str → List (Str × Str) → List Effect →
    List Effect × Option (List (Str × Str))
  | [], d, effs => (effs, some d)
  | a :: rest, d, effs =>
    match splitArg a with
    | none => (effs ++ [Effect.errPrint (Msg.invalidArg a)], none)
    | some (k, v) =>
      let effs' := if v.head? = some '@'
        then effs ++ [Effect.readAux (v.drop 1)] else effs
      processArgs fs rest (dictInsert d k (resolveValue fs v)) effs'

/-- Embeds `main` (lines 31-60).  `sys.argv` is `prog :: args`; the
`len(sys.argv) < 3` check is `args` having fewer than two elements.
On success the input is read, every placeholder pass applied, and the
result written to the output path; exit code 0.  On a validation
failure the error is printed and the exit code is 1. -/
def run (prog : Str) (args : List Str) (fs : Str → Str) : Outcome :=
  match args with
  | inp :: outp :: rest =>
    match processArgs fs rest [] [] with
    | (effs, none) => ⟨effs, 1⟩
    | (effs, some d) =>
      ⟨effs ++ [Effect.readInput inp,
                Effect.writeFile outp (substitute (fs inp) d)], 0⟩
  | _ => ⟨[Effect.errPrint (Msg.usage prog)], 1⟩

/-- A string mentions neither brace character. -/
def noBrace (s : Str) : Prop := '{' ∉ s ∧ '}' ∉ s

instance (s : Str) : Decidable (noBrace s) := by
  unfold noBrace
  infer_instance

/-- Proof device for commutation: a single left-to-right scan replacing
two patterns simultaneously, the first pattern taking priority. -/
def sim2 (p₁ r₁ p₂ r₂ : Str) : Str → Str
  | [] => []
  | c :: t =>
    if h : p₁ ≠ [] ∧ p₁ <+: (c :: t) then
      r₁ ++ sim2 p₁ r₁ p₂ r₂ ((c :: t).drop p₁.length)
    else if h₂ : p₂ ≠ [] ∧ p₂ <+: (c :: t) then
      r₂ ++ sim2 p₁ r₁ p₂ r₂ ((c :: t).drop p₂.length)
    else
      c :: sim2 p₁ r₁ p₂ r₂ t
termination_by s => s.length
decreasing_by
  · have hp : 0 < p₁.length := List.length_pos.mpr h.1
    simp only [List.length_drop, List.length_cons]
    omega
  · have hp : 0 < p₂.length := List.length_pos.mpr h₂.1
    simp only [List.length_drop, List.length_cons]
    omega
  · simp only [List.length_cons]
    omega

/-- The specification's words for `KEY=@path` resolution, for
comparison with the source's `rstripNewlines`: "a single trailing
newline (if present) is stripped". -/
def stripOneNewlineSpec (s : Str) : Str :=
  if s.getLast? = some '\n' then s.dropLast else s

/-- Number of trailing newline characters of a string. -/
def trailingNewlines (s : Str) : ℕ :=
  (s.reverse.takeWhile (fun c => c = '\n')).length

/-- The raw (unresolved) value of the last well-formed occurrence of
key `k` among the trailing arguments. -/
def lastRawValue (k : Str) : List Str → Option Str
  | [] => none
  | a :: rest =>
    match splitArg a with
    | some (k', v) =>
      match lastRawValue k rest with
      | some w => some w
      | none => if k' = k then some v else none
    | none => lastRawValue k rest

/-- The dict component of the argument loop (lines 42-53), without the
effect bookkeeping of `processArgs`. -/
def parseDict (fs : Str → Str) : List Str → List (Str × Str) →
    Option (List (Str × Str))
  | [], d => some d
  | a :: rest, d =>
    match splitArg a with
    | none => none
    | some (k, v) => parseDict fs rest (dictInsert d k (resolveValue fs v))

/-- Whether an effect is a read of an `@`-referenced file. -/
def isAuxRead : Effect → Bool
  | Effect.readAux _ => true
  | _ => false

/-- An effect trace that never reads the input file nor writes the
output file. -/
def noMainFileAccess (effs : List Effect) : Bool :=
  effs.all (fun e => match e with
    | Effect.readInput _ => false
    | Effect.writeFile _ _ => false
    | _ => true)

/-- A successful trace: some `@`-file reads, then exactly one read of
the input path followed by one write to the output path, at the very
end. -/
def successShape (o : Outcome) (args : List Str) : Bool :=
  match o.effects.reverse with
  | Effect.writeFile po _ :: Effect.readInput pi :: state =>
      state.all isAuxRead && decide (args.take 2 = [pi, po])
  | _ => false

theorem replaceNE_nil (p r : Str) : replaceNE p r [] = [] := rfl

/-- A positive skip counter just drops that many characters. -/
theorem replaceGo_skip (p r : Str) :
    ∀ (t : Str) (n : ℕ), replaceGo p r t n = replaceGo p r (t.drop n) 0 := by
  intro t
  induction t with
  | nil => intro n; cases n <;> rfl
  | cons c t' ih =>
    intro n
    cases n with
    | zero => rfl
    | succ m =>
      rw [show replaceGo p r (c :: t') (Nat.succ m) = replaceGo p r t' m
        from rfl]
      rw [ih m]
      rfl

theorem replaceNE_pos (p r : Str) (c : Char) (t : Str)
    (h : p ≠ [] ∧ p <+: (c :: t)) :
    replaceNE p r (c :: t) = r ++ replaceNE p r ((c :: t).drop p.length) := by
  have hp : 0 < p.length := List.length_pos.mpr h.1
  rw [replaceNE, replaceGo, if_pos h, replaceGo_skip]
  congr 2
  obtain ⟨m, hm⟩ : ∃ m, p.length = m + 1 := ⟨p.length - 1, by omega⟩
  rw [hm, List.drop_succ_cons]
  rfl

theorem replaceNE_neg (p r : Str) (c : Char) (t : Str)
    (h : ¬(p ≠ [] ∧ p <+: (c :: t))) :
    replaceNE p r (c :: t) = c :: replaceNE p r t := by
  rw [replaceNE, replaceGo, if_neg h]
  rfl

theorem placeholder_ne_nil (k : Str) : placeholder k ≠ [] := by
  simp [placeholder]

theorem pyReplace_placeholder (s k r : Str) :
    pyReplace s (placeholder k) r = replaceNE (placeholder k) r s := by
  rw [pyReplace, if_neg (placeholder_ne_nil k)]

theorem placeholder_head (k : Str) : (placeholder k)[0]? = some '{' := rfl

theorem placeholder_snd (k : Str) : (placeholder k)[1]? = some '{' := by
  simp [placeholder]

theorem placeholder_length (k : Str) :
    (placeholder k).length = k.length + 4 := by
  simp [placeholder]

theorem placeholder_getLast (k : Str) :
    (placeholder k).getLast? = some '}' := by
  have : placeholder k = ('{' :: '{' :: (k ++ ['}'])) ++ ['}'] := by
    simp [placeholder]
  rw [this, List.getLast?_concat]

/-- An index inside a prefix reads the same in the larger list. -/
theorem getElem?_of_pre {p s : Str} (h : p <+: s) {i : Nat}
    (hi : i < p.length) : s[i]? = p[i]? := by
  obtain ⟨t, rfl⟩ := h
  exact List.getElem?_append_left hi

/-- A placeholder pattern never begins strictly inside another
placeholder block: the interior of `placeholder k ++ u` contains no
two consecutive `{` characters when `k` is brace-free. -/
theorem no_ph_match_interior {k k' u : Str} (hk : noBrace k)
    {j : Nat} (h1 : 1 ≤ j) (h2 : j < (placeholder k).length)
    (hpre : placeholder k' <+: (placeholder k ++ u).drop j) : False := by
  have e0 : (placeholder k ++ u)[j]? = some '{' := by
    have := getElem?_of_pre hpre (i := 0) (by simp [placeholder])
    rw [List.getElem?_drop] at this
    simpa [placeholder_head] using this
  have e1 : (placeholder k ++ u)[j + 1]? = some '{' := by
    have := getElem?_of_pre hpre (i := 1) (by rw [placeholder_length]; omega)
    rw [List.getElem?_drop] at this
    simpa [placeholder_snd] using this
  have hmem : ∀ i, 2 ≤ i → i < (placeholder k).length →
      (placeholder k ++ u)[i]? ≠ some '{' := by
    intro i hi2 hilt heq
    rw [List.getElem?_append_left hilt] at heq
    have hi' : (placeholder k)[i]? = (k ++ ['}', '}'])[i - 2]? := by
      obtain ⟨i', rfl⟩ : ∃ i', i = i' + 2 := ⟨i - 2, by omega⟩
      simp [placeholder]
    rw [hi'] at heq
    have : '{' ∈ k ++ ['}', '}'] := List.getElem?_mem heq
    rcases List.mem_append.mp this with hm | hm
    · exact hk.1 hm
    · simp at hm
  rcases Nat.lt_or_ge j 2 with hj | hj
  · have hj1 : j = 1 := by omega
    subst hj1
    have h2' : 2 < (placeholder k).length := by
      rw [placeholder_length]
      omega
    exact hmem 2 (by omega) h2' e1
  · exact hmem j hj h2 e0

/-- If a pattern matches nowhere inside the block `A`, replacement
distributes past `A`. -/
theorem replaceNE_append_no_match {p r A B : Str}
    (h : ∀ i, i < A.length → ¬ p <+: (A ++ B).drop i) :
    replaceNE p r (A ++ B) = A ++ replaceNE p r B := by
  induction A with
  | nil => simp
  | cons a A' ih =>
    have hng : ¬(p ≠ [] ∧ p <+: (a :: (A' ++ B))) := by
      intro hc
      exact h 0 (by simp) (by simpa using hc.2)
    rw [List.cons_append, replaceNE_neg _ _ _ _ hng]
    rw [ih (fun i hi hp => h (i + 1) (by simp; omega) (by simpa using hp))]
    rfl

/-- A placeholder pattern cannot begin inside a brace-free block. -/
theorem no_ph_match_in_braceless {A B k : Str} (hA : '{' ∉ A)
    {i : Nat} (hi : i < A.length)
    (hp : placeholder k <+: (A ++ B).drop i) : False := by
  have e0 : (A ++ B)[i]? = some '{' := by
    have := getElem?_of_pre hp (i := 0) (by simp [placeholder])
    rw [List.getElem?_drop] at this
    simpa [placeholder_head] using this
  rw [List.getElem?_append_left hi] at e0
  exact hA (List.getElem?_mem e0)

theorem replaceNE_append_braceless {A B k r' : Str} (hA : '{' ∉ A) :
    replaceNE (placeholder k) r' (A ++ B)
      = A ++ replaceNE (placeholder k) r' B :=
  replaceNE_append_no_match
    (fun i hi hp => no_ph_match_in_braceless hA hi hp)

/-- Equal keys follow from one placeholder being a prefix of another
placeholder followed by anything, for brace-free keys. -/
theorem keys_eq_of_pre :
    ∀ {k₁ k₂ w : Str}, '}' ∉ k₁ → '}' ∉ k₂ →
      (k₁ ++ ['}', '}']) <+: (k₂ ++ ['}', '}'] ++ w) → k₁ = k₂ := by
  intro k₁
  induction k₁ with
  | nil =>
    intro k₂ w _ h2 hp
    cases k₂ with
    | nil => rfl
    | cons c k₂' =>
      exfalso
      rw [List.nil_append, List.cons_append, List.cons_append,
        List.cons_prefix_cons] at hp
      exact h2 (by simp [← hp.1])
  | cons a k₁' ih =>
    intro k₂ w h1 h2 hp
    cases k₂ with
    | nil =>
      exfalso
      rw [List.cons_append, List.nil_append, List.cons_append,
        List.cons_prefix_cons] at hp
      exact h1 (by simp [hp.1])
    | cons c k₂' =>
      rw [List.cons_append, List.cons_append, List.cons_append,
        List.cons_prefix_cons] at hp
      have h1' : '}' ∉ k₁' := fun hm => h1 (List.mem_cons_of_mem _ hm)
      have h2' : '}' ∉ k₂' := fun hm => h2 (List.mem_cons_of_mem _ hm)
      have := ih h1' h2' (by simpa using hp.2)
      simp [hp.1, this]

theorem placeholder_pre_eq {k₁ k₂ w : Str} (h1 : '}' ∉ k₁)
    (h2 : '}' ∉ k₂)
    (hp : placeholder k₁ <+: placeholder k₂ ++ w) : k₁ = k₂ := by
  unfold placeholder at hp
  rw [List.cons_append, List.cons_append, List.cons_prefix_cons,
    List.cons_prefix_cons] at hp
  exact keys_eq_of_pre h1 h2 (by simpa [List.append_assoc] using hp.2.2)

/-- Splitting a prefix of an append. -/
theorem pre_append_cases :
    ∀ {A : Str} {p B : Str}, p <+: A ++ B →
      p <+: A ∨ ∃ q, p = A ++ q ∧ q <+: B := by
  intro A
  induction A with
  | nil =>
    intro p B hp
    exact Or.inr ⟨p, rfl, hp⟩
  | cons a A' ih =>
    intro p B hp
    cases p with
    | nil => exact Or.inl (List.nil_prefix)
    | cons x p' =>
      rw [List.cons_append, List.cons_prefix_cons] at hp
      rcases ih hp.2 with h | ⟨q, hq1, hq2⟩
      · exact Or.inl (by rw [List.cons_prefix_cons]; exact ⟨hp.1, h⟩)
      · exact Or.inr ⟨q, by rw [hp.1, hq1, List.cons_append], hq2⟩

/-- An infix is a prefix of some tail. -/
theorem infix_drop_iff {v s : Str} :
    v <:+: s ↔ ∃ n, v <+: s.drop n := by
  constructor
  · rintro ⟨x, y, rfl⟩
    refine ⟨x.length, ?_⟩
    rw [List.append_assoc, List.drop_left]
    exact List.prefix_append v y
  · rintro ⟨n, hn⟩
    exact List.infix_iff_prefix_suffix.mpr ⟨s.drop n, hn, List.drop_suffix n s⟩

/-- The head of a list avoiding `c` is not `c`. -/
theorem head_ne_of_not_mem {v : Str} {c : Char} (h : c ∉ v) :
    v.head? ≠ some c := by
  intro hh
  cases v with
  | nil => simp at hh
  | cons d v' =>
    simp at hh
    exact h (by simp [hh])

/-- Peeling two equal characters off the front of an append whose middle
part cannot supply them. -/
theorem peel2 {v x y w : Str} {c : Char} (hne : v ≠ [])
    (hd : v.head? ≠ some c) (h : x ++ (v ++ y) = c :: c :: w) :
    ∃ x', x = c :: c :: x' ∧ x' ++ (v ++ y) = w := by
  cases x with
  | nil =>
    exfalso
    cases v with
    | nil => exact hne rfl
    | cons d v' =>
      rw [List.nil_append, List.cons_append] at h
      injection h with h1 _
      exact hd (by simp [h1])
  | cons a x₁ =>
    cases x₁ with
    | nil =>
      exfalso
      rw [List.singleton_append] at h
      injection h with h1 h2
      cases v with
      | nil => exact hne rfl
      | cons d v' =>
        rw [List.cons_append] at h2
        injection h2 with h3 _
        exact hd (by simp [h3])
    | cons b x' =>
      rw [List.cons_append, List.cons_append] at h
      injection h with h1 h2
      injection h2 with h3 h4
      exact ⟨x', by rw [h1, h3], h4⟩

/-- A brace-free string that occurs inside a placeholder occurs inside
its key. -/
theorem bracefree_infix_key {v k : Str} (hv1 : '{' ∉ v) (hv2 : '}' ∉ v)
    (h : v <:+: placeholder k) : v <:+: k := by
  rcases eq_or_ne v [] with rfl | hne
  · exact List.nil_infix
  obtain ⟨x, y, hxy⟩ := h
  rw [List.append_assoc] at hxy
  have hxy' : x ++ (v ++ y) = '{' :: '{' :: (k ++ ['}', '}']) := hxy
  obtain ⟨x', _, hmid⟩ := peel2 hne (head_ne_of_not_mem hv1) hxy'
  have hrev : y.reverse ++ (v.reverse ++ x'.reverse)
      = '}' :: '}' :: k.reverse := by
    have := congrArg List.reverse hmid
    simpa [List.reverse_append, List.append_assoc] using this
  have hvrne : v.reverse ≠ [] := by simpa using hne
  have hvrh : v.reverse.head? ≠ some '}' :=
    head_ne_of_not_mem (by simpa using hv2)
  obtain ⟨y', _, hmid2⟩ := peel2 hvrne hvrh hrev
  refine ⟨x', y'.reverse, ?_⟩
  have := congrArg List.reverse hmid2
  simpa [List.reverse_append, List.append_assoc] using this

/-- `getLast?` ignores everything before a nonempty final block. -/
theorem getLast_append_of_ne_nil {A B : Str} (h : B ≠ []) :
    (A ++ B).getLast? = B.getLast? := by
  rcases B.eq_nil_or_concat with rfl | ⟨L, b, rfl⟩
  · exact absurd rfl h
  · rw [List.concat_eq_append, ← List.append_assoc, List.getLast?_concat,
      List.getLast?_concat]

/-- One pass of `replaceNE` either changes nothing or splits the input
at its leftmost match. -/
theorem replaceNE_decomp (p r : Str) (s : Str) :
    replaceNE p r s = s ∨
    ∃ pre rest, s = pre ++ (p ++ rest) ∧
      replaceNE p r s = pre ++ (r ++ replaceNE p r rest) := by
  induction s with
  | nil => exact Or.inl (replaceNE_nil p r)
  | cons c t ih =>
    by_cases hg : p ≠ [] ∧ p <+: (c :: t)
    · right
      obtain ⟨w, hw⟩ := hg.2
      refine ⟨[], (c :: t).drop p.length, ?_, ?_⟩
      · rw [List.nil_append, ← hw, List.drop_left]
      · rw [replaceNE_pos p r c t hg, List.nil_append]
    · rcases ih with h | ⟨pre, rest, h1, h2⟩
      · left
        rw [replaceNE_neg p r c t hg, h]
      · right
        exact ⟨c :: pre, rest, by rw [List.cons_append, ← h1],
          by rw [replaceNE_neg p r c t hg, h2, List.cons_append]⟩

/-- Key creation lemma: a replacement pass whose replacement string is
brace-free and not a substring of `k₂` can never create a new
occurrence of `placeholder k₂` at the front of the text. -/
theorem ph_pre_preserved {r k₂ : Str} (hr1 : '{' ∉ r) (hr2 : '}' ∉ r)
    (hrk : ¬ r <:+: k₂) {p : Str} {c : Char} {t : Str}
    (h : placeholder k₂ <+: c :: replaceNE p r t) :
    placeholder k₂ <+: c :: t := by
  rcases replaceNE_decomp p r t with heq | ⟨pre, rest, ht, heq⟩
  · rwa [heq] at h
  · rw [heq, ← List.cons_append] at h
    have hpt : (c :: pre) <+: (c :: t) := by
      rw [List.cons_prefix_cons]
      exact ⟨rfl, ⟨p ++ rest, ht.symm⟩⟩
    rcases pre_append_cases h with h1 | ⟨q, hq, hq2⟩
    · exact h1.trans hpt
    · rcases pre_append_cases hq2 with h2 | ⟨q', hq', hq2'⟩
      · cases q with
        | nil =>
          rw [List.append_nil] at hq
          exact hq ▸ hpt
        | cons d q₁ =>
          exfalso
          apply hr2
          have e : (placeholder k₂).getLast? = (d :: q₁).getLast? := by
            rw [hq]
            exact getLast_append_of_ne_nil (by simp)
          rw [placeholder_getLast] at e
          have hm : '}' ∈ (d :: q₁) := List.mem_of_getLast?_eq_some e.symm
          exact h2.sublist.subset hm
      · exfalso
        apply hrk
        apply bracefree_infix_key hr1 hr2
        rw [hq, hq']
        exact ⟨c :: pre, q', by rw [List.append_assoc]⟩

/-- A placeholder occurring in `A ++ B` with `A` brace-free occurs in `B`. -/
theorem ph_infix_append_elim {A B k : Str} (hA : '{' ∉ A)
    (h : placeholder k <:+: A ++ B) : placeholder k <:+: B := by
  induction A with
  | nil => simpa using h
  | cons a A' ih =>
    rw [List.cons_append] at h
    rcases List.infix_cons_iff.mp h with hp | hi
    · exfalso
      have hp' : ('{' :: '{' :: (k ++ ['}', '}']) : Str) <+: a :: (A' ++ B) := hp
      have h1 := (List.cons_prefix_cons.mp hp').1
      exact hA (by simp [← h1])
    · exact ih (fun hm => hA (List.mem_cons_of_mem _ hm)) hi

/-- If the pattern occurs, the replacement string appears verbatim in
the result of the pass (it is inserted and never rescanned). -/
theorem rep_infix_of_match {p r s : Str} (hp : p ≠ []) (h : p <:+: s) :
    r <:+: replaceNE p r s := by
  induction s with
  | nil => exact absurd (List.eq_nil_of_infix_nil h) hp
  | cons c t ih =>
    by_cases hg : p <+: (c :: t)
    · rw [replaceNE_pos p r c t ⟨hp, hg⟩]
      exact ⟨[], replaceNE p r ((c :: t).drop p.length), by simp⟩
    · have hti : p <:+: t := by
        rcases List.infix_cons_iff.mp h with h1 | h2
        · exact absurd h1 hg
        · exact h2
      rw [replaceNE_neg p r c t (fun hc => hg hc.2)]
      exact List.infix_cons (ih hti)

/-- A pass whose pattern does not occur leaves the text unchanged. -/
theorem replaceNE_no_occur {p r s : Str} (h : ¬ p <:+: s) :
    replaceNE p r s = s := by
  induction s with
  | nil => exact replaceNE_nil p r
  | cons c t ih =>
    have hg : ¬ (p ≠ [] ∧ p <+: (c :: t)) := fun hc => h hc.2.isInfix
    rw [replaceNE_neg p r c t hg, ih (fun hi => h (List.infix_cons hi))]

theorem substitute_nil (html : Str) : substitute html [] = html := rfl

theorem substitute_cons (html : Str) (p : Str × Str)
    (reps : List (Str × Str)) :
    substitute html (p :: reps)
      = substitute (pyReplace html (placeholder p.1) p.2) reps := rfl

theorem substitute_append (html : Str) (l₁ l₂ : List (Str × Str)) :
    substitute html (l₁ ++ l₂) = substitute (substitute html l₁) l₂ := by
  simp [substitute, List.foldl_append]

/-- After its own pass, no occurrence of a key's placeholder remains,
provided the inserted value is brace-free and not a substring of the
key (auxiliary, with an explicit length bound for the induction). -/
theorem not_infix_self_replace_aux :
    ∀ (n : ℕ) (s : Str), s.length ≤ n → ∀ {k v : Str},
      '{' ∉ v → '}' ∉ v → ¬ v <:+: k →
      ¬ placeholder k <:+: replaceNE (placeholder k) v s := by
  intro n
  induction n with
  | zero =>
    intro s hs k v _ _ _ hinf
    have : s = [] := List.eq_nil_of_length_eq_zero (Nat.le_zero.mp hs)
    subst this
    rw [replaceNE_nil] at hinf
    exact placeholder_ne_nil k (List.eq_nil_of_infix_nil hinf)
  | succ n ih =>
    intro s hs k v hv1 hv2 hvk hinf
    cases s with
    | nil =>
      rw [replaceNE_nil] at hinf
      exact placeholder_ne_nil k (List.eq_nil_of_infix_nil hinf)
    | cons c t =>
      by_cases hg : placeholder k <+: (c :: t)
      · rw [replaceNE_pos _ _ _ _ ⟨placeholder_ne_nil k, hg⟩] at hinf
        have h2 := ph_infix_append_elim hv1 hinf
        have hlen : ((c :: t).drop (placeholder k).length).length ≤ n := by
          rw [List.length_drop, placeholder_length]
          simp only [List.length_cons]
          have := Nat.le_of_succ_le_succ hs
          omega
        exact ih _ hlen hv1 hv2 hvk h2
      · rw [replaceNE_neg _ _ _ _ (fun hc => hg hc.2)] at hinf
        rcases List.infix_cons_iff.mp hinf with hpre | hi
        · exact hg (ph_pre_preserved hv1 hv2 hvk hpre)
        · exact ih t (Nat.le_of_succ_le_succ hs) hv1 hv2 hvk hi

theorem not_infix_self_replace {k v s : Str} (hv1 : '{' ∉ v)
    (hv2 : '}' ∉ v) (hvk : ¬ v <:+: k) :
    ¬ placeholder k <:+: replaceNE (placeholder k) v s :=
  not_infix_self_replace_aux s.length s le_rfl hv1 hv2 hvk

/-- A pass for any other pattern cannot create an occurrence of
`placeholder k` when its replacement string is brace-free and not a
substring of `k` (auxiliary, with an explicit length bound). -/
theorem not_infix_replace_other_aux :
    ∀ (n : ℕ) (s : Str), s.length ≤ n → ∀ {k pat v' : Str},
      '{' ∉ v' → '}' ∉ v' → ¬ v' <:+: k →
      ¬ placeholder k <:+: s →
      ¬ placeholder k <:+: replaceNE pat v' s := by
  intro n
  induction n with
  | zero =>
    intro s hs k pat v' _ _ _ hks hinf
    have : s = [] := List.eq_nil_of_length_eq_zero (Nat.le_zero.mp hs)
    subst this
    rw [replaceNE_nil] at hinf
    exact placeholder_ne_nil k (List.eq_nil_of_infix_nil hinf)
  | succ n ih =>
    intro s hs k pat v' hv1 hv2 hvk hks hinf
    cases s with
    | nil =>
      rw [replaceNE_nil] at hinf
      exact placeholder_ne_nil k (List.eq_nil_of_infix_nil hinf)
    | cons c t =>
      by_cases hg : pat ≠ [] ∧ pat <+: (c :: t)
      · rw [replaceNE_pos _ _ _ _ hg] at hinf
        have h2 := ph_infix_append_elim hv1 hinf
        have hnot : ¬ placeholder k <:+: (c :: t).drop pat.length :=
          fun hd => hks (hd.trans (List.drop_suffix _ _).isInfix)
        have hplen : 0 < pat.length := List.length_pos.mpr hg.1
        have hlen : ((c :: t).drop pat.length).length ≤ n := by
          rw [List.length_drop]
          simp only [List.length_cons]
          have := Nat.le_of_succ_le_succ hs
          omega
        exact ih _ hlen hv1 hv2 hvk hnot h2
      · rw [replaceNE_neg _ _ _ _ hg] at hinf
        rcases List.infix_cons_iff.mp hinf with hpre | hi
        · exact hks (ph_pre_preserved hv1 hv2 hvk hpre).isInfix
        · exact ih t (Nat.le_of_succ_le_succ hs) hv1 hv2 hvk
            (fun hd => hks (List.infix_cons hd)) hi

/-- Once a placeholder is absent it stays absent through the remaining
passes, provided their values are brace-free and not substrings of `k`. -/
theorem not_infix_substitute {k : Str} :
    ∀ (l : List (Str × Str)) (s : Str),
      (∀ q ∈ l, '{' ∉ q.2 ∧ '}' ∉ q.2 ∧ ¬ q.2 <:+: k) →
      ¬ placeholder k <:+: s →
      ¬ placeholder k <:+: substitute s l := by
  intro l
  induction l with
  | nil =>
    intro s _ hks
    exact hks
  | cons q l' ih =>
    intro s hl hks
    rw [substitute_cons, pyReplace_placeholder]
    obtain ⟨h1, h2, h3⟩ := hl q (List.mem_cons_self q l')
    exact ih _ (fun q' hq' => hl q' (List.mem_cons_of_mem q hq'))
      (not_infix_replace_other_aux s.length s le_rfl h1 h2 h3 hks)

theorem infix_of_infix_right {A B l : Str} (h : l <:+: B) :
    l <:+: A ++ B := by
  obtain ⟨x, y, rfl⟩ := h
  exact ⟨A ++ x, y, by simp⟩

/-- A placeholder with a different brace-free key occurring in
`placeholder k ++ u` must occur in `u`: distinct brace-free placeholders
can neither contain nor overlap one another. -/
theorem ph_infix_unfold {X k u : Str} (hX : noBrace X) (hk : noBrace k)
    (hXk : X ≠ k)
    (h : placeholder X <:+: placeholder k ++ u) : placeholder X <:+: u := by
  obtain ⟨n, hn⟩ := infix_drop_iff.mp h
  rcases Nat.lt_or_ge n (placeholder k).length with hlt | hge
  · rcases Nat.eq_zero_or_pos n with rfl | hpos
    · rw [List.drop_zero] at hn
      exact absurd (placeholder_pre_eq hX.2 hk.2 hn) hXk
    · exact absurd hn (fun hp => no_ph_match_interior hk hpos hlt hp)
  · rw [List.drop_append_eq_append_drop, List.drop_eq_nil_of_le hge,
      List.nil_append] at hn
    exact infix_drop_iff.mpr ⟨n - (placeholder k).length, hn⟩

/-- A pass for a different brace-free key never destroys an occurrence
of `placeholder X` (auxiliary, with an explicit length bound). -/
theorem ph_preserved_replace_aux :
    ∀ (n : ℕ) (s : Str), s.length ≤ n → ∀ {X k v : Str},
      noBrace X → noBrace k → X ≠ k →
      placeholder X <:+: s →
      placeholder X <:+: replaceNE (placeholder k) v s := by
  intro n
  induction n with
  | zero =>
    intro s hs X k v _ _ _ hin
    have : s = [] := List.eq_nil_of_length_eq_zero (Nat.le_zero.mp hs)
    subst this
    exact absurd (List.eq_nil_of_infix_nil hin) (placeholder_ne_nil X)
  | succ n ih =>
    intro s hs X k v hX hk hXk hin
    cases s with
    | nil => exact absurd (List.eq_nil_of_infix_nil hin) (placeholder_ne_nil X)
    | cons c t =>
      by_cases hg : placeholder k <+: (c :: t)
      · obtain ⟨u, hu⟩ := hg
        rw [replaceNE_pos _ _ _ _ ⟨placeholder_ne_nil k, ⟨u, hu⟩⟩]
        have hdrop : (c :: t).drop (placeholder k).length = u := by
          rw [← hu, List.drop_left]
        have hXu : placeholder X <:+: u :=
          ph_infix_unfold hX hk hXk (by rw [hu]; exact hin)
        have hlen : u.length ≤ n := by
          have := congrArg List.length hu
          simp only [List.length_append, List.length_cons,
            placeholder_length] at this
          simp only [List.length_cons] at hs
          omega
        rw [hdrop]
        exact infix_of_infix_right (ih u hlen hX hk hXk hXu)
      · rcases List.infix_cons_iff.mp hin with hpre | hi
        · obtain ⟨w, hw⟩ := hpre
          have heq : replaceNE (placeholder k) v (c :: t)
              = placeholder X ++ replaceNE (placeholder k) v w := by
            rw [← hw]
            apply replaceNE_append_no_match
            intro i hilt hp
            rcases Nat.eq_zero_or_pos i with rfl | hip
            · rw [List.drop_zero, hw] at hp
              exact hg hp
            · exact no_ph_match_interior hX hip hilt hp
          rw [heq]
          exact (List.prefix_append _ _).isInfix
        · rw [replaceNE_neg _ _ _ _ (fun hc => hg hc.2)]
          simp only [List.length_cons] at hs
          exact List.infix_cons (ih t (by omega) hX hk hXk hi)

/-- Placeholders of non-supplied brace-free keys survive the whole
substitution pipeline when the supplied keys are brace-free. -/
theorem ph_preserved_substitute {X : Str} :
    ∀ (l : List (Str × Str)) (s : Str), noBrace X →
      (∀ q ∈ l, noBrace q.1 ∧ q.1 ≠ X) →
      placeholder X <:+: s → placeholder X <:+: substitute s l := by
  intro l
  induction l with
  | nil =>
    intro s _ _ hin
    exact hin
  | cons q l' ih =>
    intro s hX hl hin
    rw [substitute_cons, pyReplace_placeholder]
    obtain ⟨h1, h2⟩ := hl q (List.mem_cons_self q l')
    exact ih _ hX (fun q' hq' => hl q' (List.mem_cons_of_mem q hq'))
      (ph_preserved_replace_aux s.length s le_rfl hX h1 (Ne.symm h2) hin)

theorem sim2_nil (p₁ r₁ p₂ r₂ : Str) : sim2 p₁ r₁ p₂ r₂ [] = [] := by
  simp [sim2]

theorem sim2_pos₁ (p₁ r₁ p₂ r₂ : Str) (c : Char) (t : Str)
    (h : p₁ ≠ [] ∧ p₁ <+: (c :: t)) :
    sim2 p₁ r₁ p₂ r₂ (c :: t)
      = r₁ ++ sim2 p₁ r₁ p₂ r₂ ((c :: t).drop p₁.length) := by
  rw [sim2]
  simp [h]

theorem sim2_pos₂ (p₁ r₁ p₂ r₂ : Str) (c : Char) (t : Str)
    (h₁ : ¬(p₁ ≠ [] ∧ p₁ <+: (c :: t)))
    (h₂ : p₂ ≠ [] ∧ p₂ <+: (c :: t)) :
    sim2 p₁ r₁ p₂ r₂ (c :: t)
      = r₂ ++ sim2 p₁ r₁ p₂ r₂ ((c :: t).drop p₂.length) := by
  rw [sim2]
  rw [dif_neg h₁, dif_pos h₂]

theorem sim2_neg (p₁ r₁ p₂ r₂ : Str) (c : Char) (t : Str)
    (h₁ : ¬(p₁ ≠ [] ∧ p₁ <+: (c :: t)))
    (h₂ : ¬(p₂ ≠ [] ∧ p₂ <+: (c :: t))) :
    sim2 p₁ r₁ p₂ r₂ (c :: t) = c :: sim2 p₁ r₁ p₂ r₂ t := by
  rw [sim2]
  rw [dif_neg h₁, dif_neg h₂]

/-- Replacing a nonempty pattern at its own front. -/
theorem replaceNE_self_append {p r X : Str} (hp : p ≠ []) :
    replaceNE p r (p ++ X) = r ++ replaceNE p r X := by
  cases p with
  | nil => exact absurd rfl hp
  | cons a p' =>
    have h1 : (a :: p') <+: a :: (p' ++ X) := by
      rw [← List.cons_append]
      exact List.prefix_append _ _
    rw [List.cons_append, replaceNE_pos _ _ _ _ ⟨hp, h1⟩, ← List.cons_append,
      List.drop_left]

/-- Two successive passes for brace-free keys, the first one with a
brace-free replacement that is not a substring of the second key, act
like one simultaneous two-pattern scan. -/
theorem replace2_eq_sim2_aux :
    ∀ (n : ℕ) (s : Str), s.length ≤ n → ∀ {k₁ k₂ r₁ r₂ : Str},
      noBrace k₂ → '{' ∉ r₁ → '}' ∉ r₁ → ¬ r₁ <:+: k₂ →
      replaceNE (placeholder k₂) r₂ (replaceNE (placeholder k₁) r₁ s)
        = sim2 (placeholder k₁) r₁ (placeholder k₂) r₂ s := by
  intro n
  induction n with
  | zero =>
    intro s hs k₁ k₂ r₁ r₂ _ _ _ _
    have : s = [] := List.eq_nil_of_length_eq_zero (Nat.le_zero.mp hs)
    subst this
    rw [replaceNE_nil, replaceNE_nil, sim2_nil]
  | succ n ih =>
    intro s hs k₁ k₂ r₁ r₂ hk₂ hr1 hr2 hrk
    cases s with
    | nil => rw [replaceNE_nil, replaceNE_nil, sim2_nil]
    | cons c t =>
      simp only [List.length_cons] at hs
      by_cases hg₁ : placeholder k₁ <+: (c :: t)
      · rw [replaceNE_pos _ _ _ _ ⟨placeholder_ne_nil k₁, hg₁⟩,
          sim2_pos₁ _ _ _ _ _ _ ⟨placeholder_ne_nil k₁, hg₁⟩]
        rw [replaceNE_append_no_match
          (fun i hilt hp => no_ph_match_in_braceless hr1 hilt hp)]
        have hlen : ((c :: t).drop (placeholder k₁).length).length ≤ n := by
          rw [List.length_drop, placeholder_length]
          simp only [List.length_cons]
          omega
        rw [ih _ hlen hk₂ hr1 hr2 hrk]
      · by_cases hg₂ : placeholder k₂ <+: (c :: t)
        · obtain ⟨u, hu⟩ := hg₂
          have hdrop : (c :: t).drop (placeholder k₂).length = u := by
            rw [← hu, List.drop_left]
          have hR₁ : replaceNE (placeholder k₁) r₁ (c :: t)
              = placeholder k₂ ++ replaceNE (placeholder k₁) r₁ u := by
            rw [← hu]
            apply replaceNE_append_no_match
            intro i hilt hp
            rcases Nat.eq_zero_or_pos i with rfl | hip
            · rw [List.drop_zero, hu] at hp
              exact hg₁ hp
            · exact no_ph_match_interior hk₂ hip hilt hp
          rw [hR₁, replaceNE_self_append (placeholder_ne_nil k₂),
            sim2_pos₂ _ _ _ _ _ _ (fun hc => hg₁ hc.2)
              ⟨placeholder_ne_nil k₂, ⟨u, hu⟩⟩, hdrop]
          have hlen : u.length ≤ n := by
            have := congrArg List.length hu
            simp only [List.length_append, List.length_cons,
              placeholder_length] at this
            omega
          rw [ih _ hlen hk₂ hr1 hr2 hrk]
        · rw [replaceNE_neg _ _ _ _ (fun hc => hg₁ hc.2)]
          have hnc : ¬ placeholder k₂ <+:
              c :: replaceNE (placeholder k₁) r₁ t :=
            fun hp => hg₂ (ph_pre_preserved hr1 hr2 hrk hp)
          rw [replaceNE_neg _ _ _ _ (fun hc => hnc hc.2),
            sim2_neg _ _ _ _ _ _ (fun hc => hg₁ hc.2) (fun hc => hg₂ hc.2)]
          rw [ih t (by omega) hk₂ hr1 hr2 hrk]

/-- Distinct brace-free placeholders never match at the same position. -/
theorem both_match_absurd {k₁ k₂ w : Str} (hk₁ : noBrace k₁)
    (hk₂ : noBrace k₂) (hne : k₁ ≠ k₂)
    (h₁ : placeholder k₁ <+: w) (h₂ : placeholder k₂ <+: w) : False := by
  rcases Nat.le_total (placeholder k₁).length (placeholder k₂).length
    with hle | hle
  · have hpp := List.prefix_of_prefix_length_le h₁ h₂ hle
    have hpp' : placeholder k₁ <+: placeholder k₂ ++ [] := by
      simpa using hpp
    exact hne (placeholder_pre_eq hk₁.2 hk₂.2 hpp')
  · have hpp := List.prefix_of_prefix_length_le h₂ h₁ hle
    have hpp' : placeholder k₂ <+: placeholder k₁ ++ [] := by
      simpa using hpp
    exact hne (placeholder_pre_eq hk₂.2 hk₁.2 hpp').symm

/-- The simultaneous scan is symmetric in its two patterns, for
distinct brace-free keys. -/
theorem sim2_comm_aux :
    ∀ (n : ℕ) (s : Str), s.length ≤ n → ∀ {k₁ k₂ r₁ r₂ : Str},
      noBrace k₁ → noBrace k₂ → k₁ ≠ k₂ →
      sim2 (placeholder k₁) r₁ (placeholder k₂) r₂ s
        = sim2 (placeholder k₂) r₂ (placeholder k₁) r₁ s := by
  intro n
  induction n with
  | zero =>
    intro s hs k₁ k₂ r₁ r₂ _ _ _
    have : s = [] := List.eq_nil_of_length_eq_zero (Nat.le_zero.mp hs)
    subst this
    rw [sim2_nil, sim2_nil]
  | succ n ih =>
    intro s hs k₁ k₂ r₁ r₂ hk₁ hk₂ hne
    cases s with
    | nil => rw [sim2_nil, sim2_nil]
    | cons c t =>
      simp only [List.length_cons] at hs
      by_cases hg₁ : placeholder k₁ <+: (c :: t) <;>
        by_cases hg₂ : placeholder k₂ <+: (c :: t)
      · exact absurd (both_match_absurd hk₁ hk₂ hne hg₁ hg₂) not_false
      · rw [sim2_pos₁ _ _ _ _ _ _ ⟨placeholder_ne_nil k₁, hg₁⟩,
          sim2_pos₂ _ _ _ _ _ _ (fun hc => hg₂ hc.2)
            ⟨placeholder_ne_nil k₁, hg₁⟩]
        have hlen : ((c :: t).drop (placeholder k₁).length).length ≤ n := by
          rw [List.length_drop, placeholder_length]
          simp only [List.length_cons]
          omega
        rw [ih _ hlen hk₁ hk₂ hne]
      · rw [sim2_pos₂ _ _ _ _ _ _ (fun hc => hg₁ hc.2)
            ⟨placeholder_ne_nil k₂, hg₂⟩,
          sim2_pos₁ _ _ _ _ _ _ ⟨placeholder_ne_nil k₂, hg₂⟩]
        have hlen : ((c :: t).drop (placeholder k₂).length).length ≤ n := by
          rw [List.length_drop, placeholder_length]
          simp only [List.length_cons]
          omega
        rw [ih _ hlen hk₁ hk₂ hne]
      · rw [sim2_neg _ _ _ _ _ _ (fun hc => hg₁ hc.2) (fun hc => hg₂ hc.2),
          sim2_neg _ _ _ _ _ _ (fun hc => hg₂ hc.2) (fun hc => hg₁ hc.2)]
        rw [ih t (by omega) hk₁ hk₂ hne]

/-- Passes for two distinct brace-free keys commute when the two
brace-free replacement values are not substrings of the other key. -/
theorem replace_comm {k₁ k₂ v₁ v₂ : Str} (hk₁ : noBrace k₁)
    (hk₂ : noBrace k₂) (hne : k₁ ≠ k₂) (hv₁ : noBrace v₁)
    (hv₂ : noBrace v₂) (h12 : ¬ v₁ <:+: k₂) (h21 : ¬ v₂ <:+: k₁)
    (s : Str) :
    replaceNE (placeholder k₂) v₂ (replaceNE (placeholder k₁) v₁ s)
      = replaceNE (placeholder k₁) v₁ (replaceNE (placeholder k₂) v₂ s) := by
  rw [replace2_eq_sim2_aux s.length s le_rfl hk₂ hv₁.1 hv₁.2 h12,
    replace2_eq_sim2_aux s.length s le_rfl hk₁ hv₂.1 hv₂.2 h21,
    sim2_comm_aux s.length s le_rfl hk₁ hk₂ hne]

/-- `rstripNewlines` removes exactly the maximal run of trailing
newlines: the input is the output followed by `trailingNewlines` many
newline characters, and the output has no trailing newline left. -/
theorem rstrip_characterization (c : Str) :
    c = rstripNewlines c ++ List.replicate (trailingNewlines c) '\n'
    ∧ (rstripNewlines c).getLast? ≠ some '\n' := by
  constructor
  · have hsplit := List.takeWhile_append_dropWhile
      (p := fun x => decide (x = '\n')) (l := c.reverse)
    have hrepl : c.reverse.takeWhile (fun x => decide (x = '\n'))
        = List.replicate (trailingNewlines c) '\n' := by
      rw [List.eq_replicate_iff]
      refine ⟨rfl, ?_⟩
      intro b hb
      have := List.mem_takeWhile_imp hb
      simpa using this
    calc c = c.reverse.reverse := by rw [List.reverse_reverse]
      _ = ((c.reverse.takeWhile (fun x => decide (x = '\n')))
            ++ c.reverse.dropWhile (fun x => decide (x = '\n'))).reverse := by
            rw [hsplit]
      _ = rstripNewlines c
            ++ List.replicate (trailingNewlines c) '\n' := by
            rw [List.reverse_append, ← hrepl]
            congr 1
            rw [hrepl, List.reverse_replicate]
  · intro hlast
    rw [rstripNewlines, List.getLast?_reverse] at hlast
    have := List.head?_dropWhile_not
      (fun x => decide (x = '\n')) c.reverse
    rw [hlast] at this
    simp at this

/-- Lookup after the in-place update branch of `dictInsert`. -/
theorem lookupD_map_update (d : List (Str × Str)) (k' w k : Str) :
    lookupD (d.map (fun p => if p.1 = k' then (p.1, w) else p)) k
      = (lookupD d k).map (fun old => if k' = k then w else old) := by
  induction d with
  | nil => rfl
  | cons p rest ih =>
    obtain ⟨pk, pv⟩ := p
    by_cases h2 : pk = k'
    · by_cases h1 : pk = k
      · have hkk : k' = k := h2.symm.trans h1
        simp [lookupD, h1, h2, hkk]
      · have hkk : ¬ k' = k := fun he => h1 (h2.trans he)
        simp [lookupD, h1, h2, hkk, ih]
    · by_cases h1 : pk = k
      · have hkk : ¬ k' = k := fun he => h2 (h1.trans he.symm)
        have h2' : ¬ k = k' := fun he => h2 (h1.trans he)
        simp [lookupD, h1, h2', hkk]
      · simp [lookupD, h1, h2, ih]

theorem lookupD_append (d₁ d₂ : List (Str × Str)) (k : Str) :
    lookupD (d₁ ++ d₂) k = (lookupD d₁ k).or (lookupD d₂ k) := by
  induction d₁ with
  | nil => simp [lookupD]
  | cons p rest ih =>
    by_cases h1 : p.1 = k
    · simp [lookupD, h1]
    · simp [lookupD, h1, ih]

/-- Lookup after a Python-style dict assignment: the assigned key now
maps to the new value, every other key is unaffected. -/
theorem lookupD_dictInsert (d : List (Str × Str)) (k' w k : Str) :
    lookupD (dictInsert d k' w) k
      = if k' = k then some w else lookupD d k := by
  unfold dictInsert
  by_cases hk : hasKey d k'
  · rw [if_pos hk, lookupD_map_update]
    by_cases he : k' = k
    · subst he
      rw [if_pos rfl]
      unfold hasKey at hk
      rcases ho : lookupD d k' with _ | old
      · rw [ho] at hk
        simp at hk
      · simp [if_pos rfl]
    · rw [if_neg he]
      rcases lookupD d k with _ | old <;> simp [he]
  · rw [if_neg hk, lookupD_append]
    by_cases he : k' = k
    · subst he
      unfold hasKey at hk
      rcases ho : lookupD d k' with _ | old
      · simp [lookupD]
      · rw [ho] at hk
        simp at hk
    · rcases lookupD d k with _ | old <;> simp [lookupD, he]

/-- The dict produced by `processArgs` is computed by `parseDict`. -/
theorem processArgs_dict (fs : Str → Str) :
    ∀ (args : List Str) (d : List (Str × Str)) (effs : List Effect),
      (processArgs fs args d effs).2 = parseDict fs args d := by
  intro args
  induction args with
  | nil => intro d effs; rfl
  | cons a rest ih =>
    intro d effs
    rcases hsp : splitArg a with _ | ⟨k, v⟩
    · simp [processArgs, parseDict, hsp]
    · simp only [processArgs, parseDict, hsp]
      exact ih _ _

/-- Generalized-accumulator form: the dict lookup equals the resolved
last raw value, falling back to the accumulator. -/
theorem parseDict_lookup (fs : Str → Str) :
    ∀ (args : List Str) (acc d : List (Str × Str)) (k : Str),
      parseDict fs args acc = some d →
      lookupD d k = (match lastRawValue k args with
        | some w => some (resolveValue fs w)
        | none => lookupD acc k) := by
  intro args
  induction args with
  | nil =>
    intro acc d k h
    have : acc = d := by
      simpa [parseDict] using h
    subst this
    rfl
  | cons a rest ih =>
    intro acc d k h
    rcases hsp : splitArg a with _ | ⟨k', v⟩
    · rw [parseDict, hsp] at h
      cases h
    · rw [parseDict, hsp] at h
      have hrec := ih _ _ k h
      rw [hrec]
      rcases hlast : lastRawValue k rest with _ | w
      · rw [lookupD_dictInsert]
        by_cases he : k' = k
        · simp [lastRawValue, hsp, hlast, he]
        · simp [lastRawValue, hsp, hlast, he]
      · simp [lastRawValue, hsp, hlast]

/-- Characterization of a found `partition`: the prefix is separator-free
and the argument is prefix, separator, remainder. -/
theorem pyPartition_found :
    ∀ (a : Str) {k v : Str} {ch : Char},
      pyPartition a ch = (k, true, v) → a = k ++ ch :: v ∧ ch ∉ k := by
  intro a
  induction a with
  | nil =>
    intro k v ch h
    simp [pyPartition] at h
  | cons c t ih =>
    intro k v ch h
    rw [pyPartition] at h
    by_cases hc : c = ch
    · rw [if_pos hc] at h
      simp only [Prod.mk.injEq] at h
      obtain ⟨h1, _, h3⟩ := h
      subst h1
      subst h3
      exact ⟨by rw [hc, List.nil_append], by simp⟩
    · rw [if_neg hc] at h
      simp only [Prod.mk.injEq] at h
      obtain ⟨h1, h2, h3⟩ := h
      have hr : pyPartition t ch = ((pyPartition t ch).1, true, v) := by
        rw [← h2, ← h3]
      obtain ⟨ht, hnm⟩ := ih hr
      subst h1
      refine ⟨by rw [List.cons_append, ← ht], ?_⟩
      intro hm
      rcases List.mem_cons.mp hm with rfl | hm'
      · exact hc rfl
      · exact hnm hm'

/-- A well-formed trailing argument splits on its first `=` into a
non-empty, `=`-free key and a (possibly empty) value. -/
theorem splitArg_some {a k v : Str} (h : splitArg a = some (k, v)) :
    k ≠ [] ∧ '=' ∉ k ∧ a = k ++ '=' :: v := by
  unfold splitArg at h
  by_cases hcond : (pyPartition a '=').1 = [] ∨ (pyPartition a '=').2.1 = false
  · rw [if_pos hcond] at h
    cases h
  · rw [if_neg hcond] at h
    push_neg at hcond
    obtain ⟨hk, hsep⟩ := hcond
    simp only [Option.some.injEq, Prod.mk.injEq] at h
    obtain ⟨h1, h2⟩ := h
    have hsep' : (pyPartition a '=').2.1 = true :=
      Bool.not_eq_false _ ▸ (by simpa using hsep)
    have hfull : pyPartition a '=' = ((pyPartition a '=').1, true, v) := by
      rw [← hsep', ← h2]
    obtain ⟨ha, hnm⟩ := pyPartition_found a hfull
    subst h1
    exact ⟨hk, hnm, ha⟩

/-- With well-formed arguments before it, the first malformed argument
is the one reported, and parsing aborts. -/
theorem processArgs_first_invalid (fs : Str → Str) :
    ∀ (good : List Str) (a : Str) (post : List Str)
      (d : List (Str × Str)) (effs : List Effect),
      (∀ b ∈ good, (splitArg b).isSome = true) → splitArg a = none →
      ∃ effs', processArgs fs (good ++ a :: post) d effs
        = (effs' ++ [Effect.errPrint (Msg.invalidArg a)], none) := by
  intro good
  induction good with
  | nil =>
    intro a post d effs _ ha
    refine ⟨effs, ?_⟩
    simp [processArgs, ha]
  | cons b good' ih =>
    intro a post d effs hgood ha
    have hb := hgood b (List.mem_cons_self b good')
    rcases hsp : splitArg b with _ | ⟨k, v⟩
    · rw [hsp] at hb
      simp at hb
    · rw [List.cons_append]
      rw [show processArgs fs (b :: (good' ++ a :: post)) d effs
          = processArgs fs (good' ++ a :: post)
              (dictInsert d k (resolveValue fs v))
              (if v.head? = some '@'
                then effs ++ [Effect.readAux (v.drop 1)] else effs)
        from by rw [processArgs, hsp]]
      exact ih a post _ _
        (fun c hc => hgood c (List.mem_cons_of_mem b hc)) ha

/-- The effect trace of the argument loop extends the accumulator with
`@`-file reads only, plus one final error print when parsing fails. -/
theorem processArgs_effects (fs : Str → Str) :
    ∀ (args : List Str) (d : List (Str × Str)) (effs : List Effect),
      ∃ new, (processArgs fs args d effs).1 = effs ++ new
        ∧ ((processArgs fs args d effs).2.isSome = true →
            new.all isAuxRead = true)
        ∧ ((processArgs fs args d effs).2 = none →
            ∃ aux a, new = aux ++ [Effect.errPrint (Msg.invalidArg a)]
              ∧ aux.all isAuxRead = true) := by
  intro args
  induction args with
  | nil =>
    intro d effs
    exact ⟨[], by simp [processArgs], by simp, by simp [processArgs]⟩
  | cons a rest ih =>
    intro d effs
    rcases hsp : splitArg a with _ | ⟨k, v⟩
    · refine ⟨[Effect.errPrint (Msg.invalidArg a)], ?_, ?_, ?_⟩
      · simp [processArgs, hsp]
      · simp [processArgs, hsp]
      · intro _
        exact ⟨[], a, rfl, rfl⟩
    · have hstep : processArgs fs (a :: rest) d effs
          = processArgs fs rest (dictInsert d k (resolveValue fs v))
              (if v.head? = some '@'
                then effs ++ [Effect.readAux (v.drop 1)] else effs) := by
        rw [processArgs, hsp]
      by_cases hat : v.head? = some '@'
      · obtain ⟨new', h1, h2, h3⟩ :=
          ih (dictInsert d k (resolveValue fs v))
            (effs ++ [Effect.readAux (v.drop 1)])
        refine ⟨Effect.readAux (v.drop 1) :: new', ?_, ?_, ?_⟩
        · rw [hstep, if_pos hat, h1, List.append_assoc]
          rfl
        · intro hsome
          rw [hstep, if_pos hat] at hsome
          have := h2 hsome
          simpa [isAuxRead] using this
        · intro hnone
          rw [hstep, if_pos hat] at hnone
          obtain ⟨aux, b, hb1, hb2⟩ := h3 hnone
          refine ⟨Effect.readAux (v.drop 1) :: aux, b, ?_, ?_⟩
          · rw [hb1]
            rfl
          · simpa [isAuxRead] using hb2
      · obtain ⟨new', h1, h2, h3⟩ :=
          ih (dictInsert d k (resolveValue fs v)) effs
        refine ⟨new', ?_, ?_, ?_⟩
        · rw [hstep, if_neg hat, h1]
        · intro hsome
          rw [hstep, if_neg hat] at hsome
          exact h2 hsome
        · intro hnone
          rw [hstep, if_neg hat] at hnone
          exact h3 hnone

/-- C1, counterexample: for a file containing `"x\n\n"`, the program
resolves the `@`-value to `"x"` (all trailing newlines stripped by
`rstrip("\n")`), not to `"x\n"` as the claim's "exactly one trailing
newline stripped" requires. -/
theorem c1_counterexample :
    resolveValue (fun _ => ['x', '\n', '\n']) ['@', 'f'] = ['x']
    ∧ stripOneNewlineSpec ['x', '\n', '\n'] = ['x', '\n']
    ∧ resolveValue (fun _ => ['x', '\n', '\n']) ['@', 'f']
        ≠ stripOneNewlineSpec ['x', '\n', '\n'] := by
  exact ⟨rfl, rfl, by decide⟩

/-- C1 as amended: for every argument of the form `KEY=@path`, the
resolved replacement value is the referenced file's contents with the
entire run of trailing newlines stripped: the contents equal the
resolved value followed by some number of newlines, and the resolved
value itself does not end in a newline (so contents with no trailing
newline are used verbatim). -/
theorem c1_resolved_strips_all_newlines (fs : Str → Str) (v : Str)
    (h : v.head? = some '@') :
    fs (v.drop 1) = resolveValue fs v
        ++ List.replicate (trailingNewlines (fs (v.drop 1))) '\n'
    ∧ (resolveValue fs v).getLast? ≠ some '\n' := by
  rw [resolveValue, if_pos h]
  exact rstrip_characterization (fs (v.drop 1))

theorem c1_witness :
    ((['@', 'f'] : Str).head? = some '@')
    ∧ ((fun _ : Str => ['x', '\n', '\n']) ((['@', 'f'] : Str).drop 1)
        = resolveValue (fun _ => ['x', '\n', '\n']) ['@', 'f']
          ++ List.replicate
            (trailingNewlines
              ((fun _ : Str => ['x', '\n', '\n'])
                ((['@', 'f'] : Str).drop 1))) '\n'
      ∧ (resolveValue
          (fun _ => ['x', '\n', '\n']) ['@', 'f']).getLast?
            ≠ some '\n') :=
  ⟨rfl, c1_resolved_strips_all_newlines
    (fun _ => ['x', '\n', '\n']) ['@', 'f'] rfl⟩

/-- C2, counterexample: with input `{{A}}` and arguments
`A={{B}} B=bomb` (so A's resolved value contains `{{B}}` and `B` is
another supplied key), the output is `bomb`: the `{{B}}` inserted by
A's pass was rescanned and replaced by B's later pass, so it does not
appear verbatim in the output. -/
theorem c2_counterexample :
    placeholder ['B'] <:+: ('{' :: '{' :: 'B' :: '}' :: '}' :: [])
    ∧ substitute ('{' :: '{' :: 'A' :: '}' :: '}' :: [])
        [(['A'], '{' :: '{' :: 'B' :: '}' :: '}' :: []),
         (['B'], ['b', 'o', 'm', 'b'])]
      = ['b', 'o', 'm', 'b']
    ∧ ¬ placeholder ['B'] <:+: (['b', 'o', 'm', 'b'] : Str) := by
  refine ⟨by decide, by decide, by decide⟩

/-- C2 as amended: a value inserted by a key's substitution pass is
never rescanned during that same pass; in particular, any substring `t`
of the value of the key applied last survives verbatim into the output
whenever that key's placeholder occurs in the text reaching its pass.
(Passes of keys applied later may, however, rescan inserted values, as
the counterexample shows.) -/
theorem c2_last_value_not_rescanned (html t k v : Str)
    (reps : List (Str × Str))
    (hocc : placeholder k <:+: substitute html reps) (ht : t <:+: v) :
    t <:+: substitute html (reps ++ [(k, v)]) := by
  rw [substitute_append, substitute_cons, substitute_nil,
    pyReplace_placeholder]
  exact ht.trans (rep_infix_of_match (placeholder_ne_nil k) hocc)

theorem c2_witness :
    (placeholder ['K'] <:+:
        substitute ('{' :: '{' :: 'K' :: '}' :: '}' :: []) []
      ∧ placeholder ['B'] <:+:
        ('{' :: '{' :: 'B' :: '}' :: '}' :: [] : Str))
    ∧ placeholder ['B'] <:+:
        substitute ('{' :: '{' :: 'K' :: '}' :: '}' :: [])
          ([] ++ [(['K'], '{' :: '{' :: 'B' :: '}' :: '}' :: [])]) :=
  ⟨⟨by decide, by decide⟩,
    c2_last_value_not_rescanned _ _ _ _ [] (by decide) (by decide)⟩

/-- C3, counterexample: the two orders of applying the distinct keys
`A` (value `{{B}}`) and `B` (value `bomb`) to the input `{{A}}` give
different outputs (`bomb` versus `{{B}}`), so the output is not
independent of the order of application. -/
theorem c3_counterexample :
    List.Perm
      [(['A'], '{' :: '{' :: 'B' :: '}' :: '}' :: []),
       (['B'], ['b', 'o', 'm', 'b'])]
      [(['B'], ['b', 'o', 'm', 'b']),
       (['A'], '{' :: '{' :: 'B' :: '}' :: '}' :: [])]
    ∧ (['A'] : Str) ≠ ['B']
    ∧ substitute ('{' :: '{' :: 'A' :: '}' :: '}' :: [])
        [(['A'], '{' :: '{' :: 'B' :: '}' :: '}' :: []),
         (['B'], ['b', 'o', 'm', 'b'])]
      ≠ substitute ('{' :: '{' :: 'A' :: '}' :: '}' :: [])
        [(['B'], ['b', 'o', 'm', 'b']),
         (['A'], '{' :: '{' :: 'B' :: '}' :: '}' :: [])] :=
  ⟨List.Perm.swap _ _ _, by decide, by decide⟩

/-- C3 as amended: the output is independent of the order in which the
key/value pairs are applied, provided the keys are distinct and
brace-free, every resolved value is brace-free, and no value is a
substring of a different key. -/
theorem c3_substitute_perm (html : Str) (l l' : List (Str × Str))
    (hp : l.Perm l')
    (hb : ∀ q ∈ l, noBrace q.1 ∧ noBrace q.2)
    (hd : l.Pairwise (fun q q' => q.1 ≠ q'.1))
    (hcross : ∀ q ∈ l, ∀ q' ∈ l, q.1 ≠ q'.1 → ¬ q.2 <:+: q'.1) :
    substitute html l = substitute html l' := by
  unfold substitute
  refine hp.foldl_eq' ?_ html
  intro x hx y hy z
  by_cases hxy : x = y
  · rw [hxy]
  · have hsym : Symmetric (fun q q' : Str × Str => q.1 ≠ q'.1) :=
      fun a b hab => hab.symm
    have hkne : x.1 ≠ y.1 := hd.forall hsym hx hy hxy
    rw [pyReplace_placeholder, pyReplace_placeholder,
      pyReplace_placeholder, pyReplace_placeholder]
    exact replace_comm (hb x hx).1 (hb y hy).1 hkne (hb x hx).2
      (hb y hy).2 (hcross x hx y hy hkne) (hcross y hy x hx hkne.symm) z

theorem c3_witness :
    (List.Perm [((['A'] : Str), (['x'] : Str)), (['B'], ['y'])]
        [(['B'], ['y']), (['A'], ['x'])]
      ∧ (∀ q ∈ [((['A'] : Str), (['x'] : Str)), (['B'], ['y'])],
          noBrace q.1 ∧ noBrace q.2)
      ∧ List.Pairwise (fun q q' => q.1 ≠ q'.1)
          [((['A'] : Str), (['x'] : Str)), (['B'], ['y'])]
      ∧ (∀ q ∈ [((['A'] : Str), (['x'] : Str)), (['B'], ['y'])],
          ∀ q' ∈ [((['A'] : Str), (['x'] : Str)), (['B'], ['y'])],
          q.1 ≠ q'.1 → ¬ q.2 <:+: q'.1))
    ∧ substitute
        ('{' :: '{' :: 'A' :: '}' :: '}' :: '{' :: '{' :: 'B' :: '}'
          :: '}' :: [])
        [((['A'] : Str), (['x'] : Str)), (['B'], ['y'])]
      = substitute
        ('{' :: '{' :: 'A' :: '}' :: '}' :: '{' :: '{' :: 'B' :: '}'
          :: '}' :: [])
        [(['B'], ['y']), (['A'], ['x'])] :=
  ⟨⟨List.Perm.swap _ _ _, by decide, by decide, by decide⟩,
    c3_substitute_perm _ _ _ (List.Perm.swap _ _ _) (by decide)
      (by decide) (by decide)⟩

/-- C4, counterexample: input `{{{{A}}}}` with the single replacement
`A=A`: the pass replaces the inner occurrence and thereby assembles a
new `{{A}}` out of the surrounding braces, so an occurrence of `{{A}}`
remains in the output although `A` is a supplied key. -/
theorem c4_counterexample :
    substitute
        ('{' :: '{' :: '{' :: '{' :: 'A' :: '}' :: '}' :: '}' :: '}'
          :: [])
        [(['A'], ['A'])]
      = '{' :: '{' :: 'A' :: '}' :: '}' :: []
    ∧ placeholder ['A'] <:+:
        substitute
          ('{' :: '{' :: '{' :: '{' :: 'A' :: '}' :: '}' :: '}' :: '}'
            :: [])
          [(['A'], ['A'])] := by
  refine ⟨by decide, by decide⟩

/-- C4 as amended: every occurrence of `{{K}}` present when K's pass
runs is replaced during that pass; and provided every resolved value is
brace-free and no resolved value (including K's own) is a substring of
K, no occurrence of `{{K}}` remains in the output. -/
theorem c4_no_placeholder_remains (html : Str)
    (l₁ l₂ : List (Str × Str)) (k v : Str)
    (hv : noBrace v) (hvk : ¬ v <:+: k)
    (hl₂ : ∀ q ∈ l₂, noBrace q.2 ∧ ¬ q.2 <:+: k) :
    ¬ placeholder k <:+: substitute html (l₁ ++ (k, v) :: l₂) := by
  rw [substitute_append, substitute_cons, pyReplace_placeholder]
  exact not_infix_substitute l₂ _
    (fun q hq => ⟨(hl₂ q hq).1.1, (hl₂ q hq).1.2, (hl₂ q hq).2⟩)
    (not_infix_self_replace hv.1 hv.2 hvk)

theorem c4_witness :
    (noBrace (['x'] : Str) ∧ ¬ (['x'] : Str) <:+: ['A']
      ∧ (∀ q ∈ ([] : List (Str × Str)),
          noBrace q.2 ∧ ¬ q.2 <:+: (['A'] : Str)))
    ∧ ¬ placeholder ['A'] <:+:
        substitute ('{' :: '{' :: 'A' :: '}' :: '}' :: [])
          ([] ++ (['A'], ['x']) :: []) :=
  ⟨⟨by decide, by decide, by decide⟩,
    c4_no_placeholder_remains _ [] [] _ _ (by decide) (by decide)
      (by decide)⟩

/-- C5 (confirmed): if the input text contains no substring of the
placeholder form `{{...}}`, the output equals the input exactly,
whatever the replacement set. -/
theorem c5_no_tokens_unchanged (html : Str) (reps : List (Str × Str))
    (h : ∀ x : Str, ¬ placeholder x <:+: html) :
    substitute html reps = html := by
  induction reps with
  | nil => rfl
  | cons q rest ih =>
    rw [substitute_cons, pyReplace_placeholder,
      replaceNE_no_occur (h q.1)]
    exact ih

/-- A text with no `{` character contains no placeholder at all. -/
theorem no_ph_of_no_brace {s : Str} (h : '{' ∉ s) :
    ∀ x : Str, ¬ placeholder x <:+: s := by
  intro x hx
  exact h (hx.sublist.subset (by simp [placeholder]))

theorem c5_witness :
    (∀ x : Str, ¬ placeholder x <:+: (['h', 'i'] : Str))
    ∧ substitute ['h', 'i'] [(['A'], ['z'])] = ['h', 'i'] :=
  ⟨no_ph_of_no_brace (by decide),
    c5_no_tokens_unchanged _ _ (no_ph_of_no_brace (by decide))⟩

/-- C6, counterexample: the input `{{A}}}` contains the placeholder
`{{X}}` for `X = "A}"`, which is not a supplied key; yet with the
replacement `A=z` the output is `z}`, in which `{{A}}}` no longer
appears: the claim fails for keys containing brace characters. -/
theorem c6_counterexample :
    placeholder ['A', '}']
        <:+: ('{' :: '{' :: 'A' :: '}' :: '}' :: '}' :: [])
    ∧ (['A', '}'] : Str) ≠ ['A']
    ∧ substitute ('{' :: '{' :: 'A' :: '}' :: '}' :: '}' :: [])
        [(['A'], ['z'])]
      = ['z', '}']
    ∧ ¬ placeholder ['A', '}'] <:+:
        substitute ('{' :: '{' :: 'A' :: '}' :: '}' :: '}' :: [])
          [(['A'], ['z'])] := by
  refine ⟨by decide, by decide, by decide, by decide⟩

/-- C6 as amended: every placeholder `{{X}}` of the input whose key `X`
is brace-free and not a supplied key still appears in the output,
provided every supplied key is brace-free. -/
theorem c6_unmatched_preserved (html X : Str)
    (reps : List (Str × Str)) (hX : noBrace X)
    (hk : ∀ q ∈ reps, noBrace q.1 ∧ q.1 ≠ X)
    (hin : placeholder X <:+: html) :
    placeholder X <:+: substitute html reps :=
  ph_preserved_substitute reps html hX hk hin

theorem c6_witness :
    (noBrace (['X'] : Str)
      ∧ (∀ q ∈ [((['A'] : Str), (['z'] : Str))],
          noBrace q.1 ∧ q.1 ≠ (['X'] : Str))
      ∧ placeholder ['X']
          <:+: ('{' :: '{' :: 'X' :: '}' :: '}' :: [] : Str))
    ∧ placeholder ['X'] <:+:
        substitute ('{' :: '{' :: 'X' :: '}' :: '}' :: [])
          [(['A'], ['z'])] :=
  ⟨⟨by decide, by decide, by decide⟩,
    c6_unmatched_preserved _ _ _ (by decide) (by decide) (by decide)⟩

/-- C7 (confirmed): when the same key appears in several trailing
arguments, the dict built by the argument loop maps that key to the
resolved value of its last occurrence. -/
theorem c7_last_occurrence_wins (fs : Str → Str) (args : List Str)
    (d : List (Str × Str)) (k w : Str)
    (h : (processArgs fs args [] []).2 = some d)
    (hw : lastRawValue k args = some w) :
    lookupD d k = some (resolveValue fs w) := by
  rw [processArgs_dict] at h
  rw [parseDict_lookup fs args [] d k h, hw]

theorem c7_witness :
    ((processArgs (fun _ => ([] : Str))
        [['A', '=', '1'], ['A', '=', '2']] [] []).2
        = some [(['A'], ['2'])]
      ∧ lastRawValue ['A'] [['A', '=', '1'], ['A', '=', '2']]
        = some ['2'])
    ∧ lookupD [(['A'], ['2'])] ['A']
        = some (resolveValue (fun _ => ([] : Str)) ['2']) :=
  ⟨⟨by decide, by decide⟩,
    c7_last_occurrence_wins (fun _ => ([] : Str))
      [['A', '=', '1'], ['A', '=', '2']] [(['A'], ['2'])] ['A'] ['2']
      (by decide) (by decide)⟩

/-- C8 (confirmed): with fewer than two positional arguments the program
prints the usage message to stderr and exits with status 1; with exactly
the two positional arguments and no trailing replacements it succeeds,
reading the input and writing its text unchanged to the output. -/
theorem c8_usage_and_copy (prog : Str) (args : List Str)
    (fs : Str → Str) :
    (args.length < 2 →
      run prog args fs = ⟨[Effect.errPrint (Msg.usage prog)], 1⟩)
    ∧ (∀ inp outp : Str, args = [inp, outp] →
      run prog args fs
        = ⟨[Effect.readInput inp, Effect.writeFile outp (fs inp)], 0⟩) := by
  constructor
  · intro hlen
    cases args with
    | nil => rfl
    | cons a args' =>
      cases args' with
      | nil => rfl
      | cons b rest =>
        simp only [List.length_cons] at hlen
        omega
  · intro inp outp heq
    subst heq
    rfl

theorem c8_witness :
    (([['i']] : List Str).length < 2
      ∧ run ['p'] [['i']] (fun _ => ['T'])
        = ⟨[Effect.errPrint (Msg.usage ['p'])], 1⟩)
    ∧ run ['p'] [['i'], ['o']] (fun _ => ['T'])
        = ⟨[Effect.readInput ['i'], Effect.writeFile ['o'] ['T']], 0⟩ :=
  ⟨⟨by decide, (c8_usage_and_copy ['p'] [['i']] (fun _ => ['T'])).1
      (by decide)⟩,
    (c8_usage_and_copy ['p'] [['i'], ['o']] (fun _ => ['T'])).2
      ['i'] ['o'] rfl⟩

/-- C9 (confirmed): a trailing argument with no `=` or an empty key
makes the program report an invalid-argument error naming the (first)
offending argument on stderr and exit with status 1; every well-formed
trailing argument splits on its first `=` into a non-empty `=`-free key
and a possibly empty value. -/
theorem c9_invalid_argument (prog inp outp : Str) (good : List Str)
    (a : Str) (post : List Str) (fs : Str → Str) (b k v : Str)
    (hgood : ∀ c ∈ good, (splitArg c).isSome = true)
    (ha : splitArg a = none)
    (hb : splitArg b = some (k, v)) :
    (run prog (inp :: outp :: (good ++ a :: post)) fs).exitCode = 1
    ∧ (run prog (inp :: outp :: (good ++ a :: post)) fs).effects.getLast?
        = some (Effect.errPrint (Msg.invalidArg a))
    ∧ (k ≠ [] ∧ '=' ∉ k ∧ b = k ++ '=' :: v) := by
  obtain ⟨effs', heq⟩ :=
    processArgs_first_invalid fs good a post [] [] hgood ha
  have hrun : run prog (inp :: outp :: (good ++ a :: post)) fs
      = ⟨effs' ++ [Effect.errPrint (Msg.invalidArg a)], 1⟩ := by
    rw [run, heq]
  refine ⟨by rw [hrun], ?_, splitArg_some hb⟩
  rw [hrun]
  exact List.getLast?_concat _

theorem c9_witness :
    ((∀ c ∈ [['A', '=', '1']], (splitArg c).isSome = true)
      ∧ splitArg ['F', 'O', 'O'] = none
      ∧ splitArg ['X', '=', '1'] = some (['X'], ['1']))
    ∧ ((run ['p'] (['i'] :: ['o'] ::
          ([['A', '=', '1']] ++ ['F', 'O', 'O'] :: [['B', '=', '2']]))
          (fun _ => ['T'])).exitCode = 1
      ∧ (run ['p'] (['i'] :: ['o'] ::
          ([['A', '=', '1']] ++ ['F', 'O', 'O'] :: [['B', '=', '2']]))
          (fun _ => ['T'])).effects.getLast?
          = some (Effect.errPrint (Msg.invalidArg ['F', 'O', 'O']))
      ∧ ((['X'] : Str) ≠ [] ∧ '=' ∉ (['X'] : Str)
          ∧ (['X', '=', '1'] : Str) = ['X'] ++ '=' :: ['1'])) :=
  ⟨⟨by decide, by decide, by decide⟩,
    c9_invalid_argument ['p'] ['i'] ['o'] [['A', '=', '1']]
      ['F', 'O', 'O'] [['B', '=', '2']] (fun _ => ['T'])
      ['X', '=', '1'] ['X'] ['1'] (by decide) (by decide) (by decide)⟩

/-- Every effect recorded as an `@`-file read passes the no-output
filter. -/
theorem noMainFileAccess_of_aux {l : List Effect}
    (h : l.all isAuxRead = true) : noMainFileAccess l = true := by
  simp only [noMainFileAccess, List.all_eq_true] at *
  intro e he
  have := h e he
  cases e <;> simp [isAuxRead] at this ⊢

/-- C10 (confirmed): whenever the program exits with status 1 (a
validation failure), its effect trace contains no read of the input
file and no write of the output file; whenever it succeeds, the trace
is some `@`-file reads followed, at the very end, by the read of the
input path and the write of the output path. -/
theorem c10_no_io_before_validation (prog : Str) (args : List Str)
    (fs : Str → Str) :
    ((run prog args fs).exitCode = 1 →
      noMainFileAccess (run prog args fs).effects = true)
    ∧ ((run prog args fs).exitCode = 0 →
      successShape (run prog args fs) args = true) := by
  rcases args with _ | ⟨inp, _ | ⟨outp, rest⟩⟩
  · exact ⟨fun _ => rfl, fun h => by simp [run] at h⟩
  · exact ⟨fun _ => rfl, fun h => by simp [run] at h⟩
  · obtain ⟨new, h1, h2, h3⟩ := processArgs_effects fs rest [] []
    rcases hpa : processArgs fs rest [] [] with ⟨effs, od⟩
    rw [hpa] at h1 h2 h3
    have heffs : effs = new := by simpa using h1
    cases od with
    | none =>
      have hrun : run prog (inp :: outp :: rest) fs = ⟨effs, 1⟩ := by
        rw [run, hpa]
      obtain ⟨aux, aerr, hn1, hn2⟩ := h3 rfl
      constructor
      · intro _
        rw [hrun]
        show noMainFileAccess effs = true
        rw [heffs, hn1, noMainFileAccess, List.all_append]
        have hfirst : aux.all (fun e => match e with
            | Effect.readInput _ => false
            | Effect.writeFile _ _ => false
            | _ => true) = true := noMainFileAccess_of_aux hn2
        rw [hfirst]
        rfl
      · intro h0
        rw [hrun] at h0
        exact absurd h0 (by simp)
    | some d =>
      have hrun : run prog (inp :: outp :: rest) fs
          = ⟨effs ++ [Effect.readInput inp,
              Effect.writeFile outp (substitute (fs inp) d)], 0⟩ := by
        rw [run, hpa]
      constructor
      · intro h1'
        rw [hrun] at h1'
        exact absurd h1' (by simp)
      · intro _
        rw [hrun]
        have hrev : (effs ++ [Effect.readInput inp,
            Effect.writeFile outp (substitute (fs inp) d)]).reverse
            = Effect.writeFile outp (substitute (fs inp) d)
              :: Effect.readInput inp :: effs.reverse := by
          simp
        show successShape _ _ = true
        rw [successShape]
        rw [show (⟨effs ++ [Effect.readInput inp,
            Effect.writeFile outp (substitute (fs inp) d)],
            0⟩ : Outcome).effects
          = effs ++ [Effect.readInput inp,
              Effect.writeFile outp (substitute (fs inp) d)] from rfl]
        rw [hrev]
        have hall : effs.reverse.all isAuxRead = true := by
          rw [List.all_reverse, heffs]
          exact h2 rfl
        simp [hall]

theorem c10_witness :
    ((run ['p'] [['i'], ['o'], ['F']] (fun _ => ['T'])).exitCode = 1
      ∧ noMainFileAccess (run ['p'] [['i'], ['o'], ['F']]
          (fun _ => ['T'])).effects = true)
    ∧ ((run ['p'] [['i'], ['o'], ['A', '=', '1']]
          (fun _ => ['T'])).exitCode = 0
      ∧ successShape (run ['p'] [['i'], ['o'], ['A', '=', '1']]
          (fun _ => ['T'])) [['i'], ['o'], ['A', '=', '1']] = true) :=
  ⟨⟨by decide,
    (c10_no_io_before_validation ['p'] [['i'], ['o'], ['F']]
      (fun _ => ['T'])).1 (by decide)⟩,
   ⟨by decide,
    (c10_no_io_before_validation ['p'] [['i'], ['o'], ['A', '=', '1']]
      (fun _ => ['T'])).2 (by decide)⟩⟩

end RenderTemplate
